import Mathlib

/-!
Shallow embedding of the core computational logic of `src/streamlit-app.py`:
synthetic bivariate-normal data generation (`generate_data`), bootstrap
resampling of the Pearson correlation coefficient (`bootstrap_correlation`,
`resample`), and the derived aggregates used by the app (`npMean`,
`confidence_interval` via `np.percentile`, and `np.histogram`).

Modelling conventions:
* A dataset is a `List (ℝ × ℝ)` of paired observations, mirroring the `n × 2`
  numpy array.
* The global numpy random generator is made explicit: `g : ℕ → ℕ` is the raw
  stream behind `np.random.randint` (draw `k` reduced mod `n` gives a uniform
  index in `[0, n)`), and `z : ℕ → ℝ × ℝ` is the stream of independent
  standard-normal pairs behind `np.random.multivariate_normal`.
* IEEE NaN is modelled by `Option ℝ`: `none` is NaN, and the numpy aggregate
  operations (`np.mean`, `np.percentile`) propagate it, as numpy does.
-/

namespace BootstrapApp

open Matrix

/-- Embedding of `resample(data)` (line 20-21 of the source):
`data[np.random.randint(len(data), size=len(data))]` builds a list of
`len(data)` rows of `data`, the `i`-th being the row at uniform random index
`g (pos + i) % data.length`; `pos` is the position of the implicit global
random stream at call time. -/
def resample {α : Type} [Inhabited α] (data : List α) (g : ℕ → ℕ) (pos : ℕ) : List α :=
  (List.range data.length).map fun i => data.getD (g (pos + i) % data.length) default

/-- Mean of the x-coordinates of a paired list, as numpy computes it for the
covariance underlying `np.corrcoef`. -/
noncomputable def meanX (ps : List (ℝ × ℝ)) : ℝ :=
  (∑ i ∈ Finset.range ps.length, (ps.getD i default).1) / ps.length

/-- Mean of the y-coordinates of a paired list. -/
noncomputable def meanY (ps : List (ℝ × ℝ)) : ℝ :=
  (∑ i ∈ Finset.range ps.length, (ps.getD i default).2) / ps.length

/-- Deviation of the `i`-th x-value from the x-mean. -/
noncomputable def devX (ps : List (ℝ × ℝ)) (i : ℕ) : ℝ :=
  (ps.getD i default).1 - meanX ps

/-- Deviation of the `i`-th y-value from the y-mean. -/
noncomputable def devY (ps : List (ℝ × ℝ)) (i : ℕ) : ℝ :=
  (ps.getD i default).2 - meanY ps

/-- Centered sum of squares of the x-values (the covariance matrix entry
`c[0,0]` of `np.corrcoef` up to the `1/(n-1)` factor, which cancels in the
correlation ratio). -/
noncomputable def sxx (ps : List (ℝ × ℝ)) : ℝ :=
  ∑ i ∈ Finset.range ps.length, devX ps i ^ 2

/-- Centered sum of squares of the y-values. -/
noncomputable def syy (ps : List (ℝ × ℝ)) : ℝ :=
  ∑ i ∈ Finset.range ps.length, devY ps i ^ 2

/-- Centered sum of cross products of the x- and y-values. -/
noncomputable def sxy (ps : List (ℝ × ℝ)) : ℝ :=
  ∑ i ∈ Finset.range ps.length, devX ps i * devY ps i

open Classical in
/-- Embedding of `np.corrcoef(sample.T)[0, 1]` (line 17 of the source): the
Pearson correlation coefficient `sxy / (√sxx · √syy)`.  When one dimension has
zero variance the quotient is `0/0`, which numpy returns as NaN: modelled as
`none`.  The `1/(n-1)` normalisation of numpy's covariance matrix cancels
between numerator and denominator and is omitted. -/
noncomputable def corrcoef (ps : List (ℝ × ℝ)) : Option ℝ :=
  if sxx ps = 0 ∨ syy ps = 0 then none
  else some (sxy ps / (Real.sqrt (sxx ps) * Real.sqrt (syy ps)))

/-- Unfolding lemma: on a degenerate sample the coefficient is NaN. -/
theorem corrcoef_of_deg {ps : List (ℝ × ℝ)} (h : sxx ps = 0 ∨ syy ps = 0) :
    corrcoef ps = none := by
  rw [corrcoef, if_pos h]

/-- Embedding of `bootstrap_correlation(data, n_iterations)` (lines 13-18 of
the source): for each of `n_iterations` rounds, draw a resample (round `k`
consumes the `data.length` random draws starting at stream position
`k * data.length`), compute its Pearson correlation, and append the result in
iteration order. -/
noncomputable def bootstrap_correlation (data : List (ℝ × ℝ)) (n_iterations : ℕ)
    (g : ℕ → ℕ) : List (Option ℝ) :=
  (List.range n_iterations).map fun k => corrcoef (resample data g (k * data.length))

/-- The 2×2 covariance matrix `[[1, correlation], [correlation, 1]]` built by
`generate_data` (line 10 of the source). -/
def covMatrix (correlation : ℝ) : Matrix (Fin 2) (Fin 2) ℝ :=
  !![1, correlation; correlation, 1]

/-- Cholesky factor of `covMatrix`: the lower-triangular matrix `L` with
`L * Lᵀ = covMatrix correlation` (for `correlation ∈ [-1, 1]`), through which
`np.random.multivariate_normal` turns independent standard-normal pairs into
draws with the requested covariance. -/
noncomputable def cholFactor (correlation : ℝ) : Matrix (Fin 2) (Fin 2) ℝ :=
  !![1, 0; correlation, Real.sqrt (1 - correlation ^ 2)]

/-- One bivariate-normal draw with zero mean and covariance
`covMatrix correlation`, obtained by applying `cholFactor` to one independent
standard-normal pair `z`. -/
noncomputable def mvnDraw (correlation : ℝ) (z : ℝ × ℝ) : ℝ × ℝ :=
  (z.1, correlation * z.1 + Real.sqrt (1 - correlation ^ 2) * z.2)

/-- Embedding of `generate_data(n, correlation)` (lines 8-11 of the source):
`np.random.multivariate_normal(mean, cov, n)` with `mean = [0, 0]` and
`cov = [[1, correlation], [correlation, 1]]`, modelled as `n` draws, the `i`-th
transformed from the `i`-th independent standard-normal pair of the stream
`z`. -/
noncomputable def generate_data (n : ℕ) (correlation : ℝ) (z : ℕ → ℝ × ℝ) :
    List (ℝ × ℝ) :=
  (List.range n).map fun i => mvnDraw correlation (z i)

/-- Embedding of `np.mean(bootstrap_correlations)` (line 122 of the source),
over `Option ℝ` values: NaN in the input (or an empty input) makes the result
NaN; otherwise the arithmetic mean. -/
noncomputable def npMean (l : List (Option ℝ)) : Option ℝ :=
  if l ≠ [] ∧ ∀ v ∈ l, v.isSome then
    some ((∑ i ∈ Finset.range l.length, (l.getD i none).getD 0) / l.length)
  else none

/-- Linear interpolation into the ascending sequence `s` of length `m` at
fractional position `p`: the value between the entries at `⌊p⌋` and
`min (⌊p⌋ + 1) (m - 1)` (numpy's default `linear` interpolation). -/
noncomputable def interp (s : List ℝ) (m : ℕ) (p : ℝ) : ℝ :=
  s.getD (⌊p⌋).toNat 0 + (p - ((⌊p⌋).toNat : ℝ)) *
    (s.getD (min ((⌊p⌋).toNat + 1) (m - 1)) 0 - s.getD (⌊p⌋).toNat 0)

/-- Embedding of `np.percentile(values, q)` with numpy's default linear
interpolation: sort ascending and interpolate at fractional position
`q * (n - 1) / 100`. -/
noncomputable def percentile (l : List ℝ) (q : ℝ) : ℝ :=
  interp (List.insertionSort (· ≤ ·) l) l.length (q * ((l.length : ℝ) - 1) / 100)

/-- Lift of `percentile` to `Option ℝ` values: numpy's `np.percentile` returns
NaN when the input holds a NaN (and is not defined on an empty input). -/
noncomputable def npPercentile (l : List (Option ℝ)) (q : ℝ) : Option ℝ :=
  if l ≠ [] ∧ ∀ v ∈ l, v.isSome then
    some (percentile (l.map fun v => v.getD 0) q)
  else none

/-- Embedding of `np.percentile(bootstrap_correlations, [2.5, 97.5])` (line 143
of the source): the 95% percentile confidence interval. -/
noncomputable def confidence_interval (l : List (Option ℝ)) : Option ℝ × Option ℝ :=
  (npPercentile l 2.5, npPercentile l 97.5)

/-- Whole pipeline of one analysis run of the app (lines 75, 95, 122, 143):
generate the dataset, bootstrap the correlation, and derive the mean and the
95% confidence interval, as a function of the inputs and the two explicit
random streams. -/
noncomputable def pipeline (n : ℕ) (correlation : ℝ) (n_iterations : ℕ)
    (z : ℕ → ℝ × ℝ) (g : ℕ → ℕ) :
    List (ℝ × ℝ) × List (Option ℝ) × Option ℝ × (Option ℝ × Option ℝ) :=
  let data := generate_data n correlation z
  let bc := bootstrap_correlation data n_iterations g
  (data, bc, npMean bc, confidence_interval bc)

/-- Length of a resample equals the length of the data. -/
theorem resample_length {α : Type} [Inhabited α] (data : List α) (g : ℕ → ℕ)
    (pos : ℕ) : (resample data g pos).length = data.length := by
  simp [resample]

/-- Elementwise description of a resample. -/
theorem resample_getD {α : Type} [Inhabited α] (data : List α) (g : ℕ → ℕ)
    (pos i : ℕ) (hi : i < data.length) :
    (resample data g pos).getD i default =
      data.getD (g (pos + i) % data.length) default := by
  simp [resample, List.getD_eq_getElem?_getD, List.getElem?_map, List.getElem?_range, hi]

/-- Concrete two-row dataset used by the witnesses. -/
noncomputable def dataW : List (ℝ × ℝ) := [(0, 0), (1, 1)]

/-- C1: for every dataset with at least 2 rows and every positive iteration
count, `bootstrap_correlation` performs `n_iterations` rounds in iteration
order; round `k` draws a bootstrap sample of size `data.length` by indexing
`data` at random indices lying in `[0, data.length)` (the random stream
reduced mod `data.length`, with replacement), computes the Pearson correlation
of the resulting paired sequence, and that value is the `k`-th output. -/
theorem bootstrap_correlation_spec (data : List (ℝ × ℝ)) (n_iterations : ℕ)
    (g : ℕ → ℕ) (hdata : 2 ≤ data.length) (hB : 1 ≤ n_iterations) :
    (bootstrap_correlation data n_iterations g).length = n_iterations ∧
    (∀ k, k < n_iterations →
      (bootstrap_correlation data n_iterations g).getD k none =
        corrcoef (resample data g (k * data.length))) ∧
    (∀ pos, (resample data g pos).length = data.length) ∧
    (∀ pos i, i < data.length →
      g (pos + i) % data.length < data.length ∧
      (resample data g pos).getD i default =
        data.getD (g (pos + i) % data.length) default) := by
  refine ⟨by simp [bootstrap_correlation], ?_, fun pos => resample_length data g pos, ?_⟩
  · intro k hk
    simp [bootstrap_correlation, List.getD_eq_getElem?_getD, List.getElem?_map,
      List.getElem?_range, hk]
  · intro pos i hi
    exact ⟨Nat.mod_lt _ (by omega), resample_getD data g pos i hi⟩

/-- Witness for C1 at the concrete dataset `dataW`, one iteration and the
identity stream. -/
theorem bootstrap_correlation_spec_witness :
    (2 ≤ dataW.length ∧ 1 ≤ 1) ∧
    ((bootstrap_correlation dataW 1 (fun i => i)).length = 1 ∧
    (∀ k, k < 1 →
      (bootstrap_correlation dataW 1 (fun i => i)).getD k none =
        corrcoef (resample dataW (fun i => i) (k * dataW.length))) ∧
    (∀ pos, (resample dataW (fun i => i) pos).length = dataW.length) ∧
    (∀ pos i, i < dataW.length →
      (fun i => i) (pos + i) % dataW.length < dataW.length ∧
      (resample dataW (fun i => i) pos).getD i default =
        dataW.getD ((fun i => i) (pos + i) % dataW.length) default)) :=
  ⟨⟨by norm_num [dataW], le_refl 1⟩,
    bootstrap_correlation_spec dataW 1 (fun i => i) (by norm_num [dataW]) (le_refl 1)⟩

/-- C2: the sequence returned by the bootstrap engine has length exactly equal
to the requested iteration count. -/
theorem bootstrap_correlation_length (data : List (ℝ × ℝ)) (n_iterations : ℕ)
    (g : ℕ → ℕ) (hdata : 2 ≤ data.length) (hB : 1 ≤ n_iterations) :
    (bootstrap_correlation data n_iterations g).length = n_iterations := by
  simp [bootstrap_correlation]

/-- Witness for C2 at `dataW` with three iterations. -/
theorem bootstrap_correlation_length_witness :
    (2 ≤ dataW.length ∧ 1 ≤ 3) ∧
      (bootstrap_correlation dataW 3 (fun i => i)).length = 3 :=
  ⟨⟨by norm_num [dataW], by norm_num⟩,
    bootstrap_correlation_length dataW 3 (fun i => i) (by norm_num [dataW]) (by norm_num)⟩

/-- C8: for all `n ≥ 2` and correlation in `[-1, 1]`, `generate_data` returns
a dataset of exactly `n` paired observations. -/
theorem generate_data_length (n : ℕ) (correlation : ℝ) (z : ℕ → ℝ × ℝ)
    (hn : 2 ≤ n) (hc : -1 ≤ correlation ∧ correlation ≤ 1) :
    (generate_data n correlation z).length = n := by
  simp [generate_data]

/-- Witness for C8 at `n = 2`, zero correlation and the constant-zero normal
stream. -/
theorem generate_data_length_witness :
    (2 ≤ 2 ∧ (-1 ≤ (0 : ℝ) ∧ (0 : ℝ) ≤ 1)) ∧
      (generate_data 2 0 fun _ => (0, 0)).length = 2 :=
  ⟨⟨le_refl 2, by norm_num⟩,
    generate_data_length 2 0 (fun _ => (0, 0)) (le_refl 2) (by norm_num)⟩

/-- C10: every observation of a resample is a row of the input dataset:
resampling only selects existing rows and never fabricates or alters values.
(The embedding is purely functional, so `resample` has no way of mutating its
input `data`, which witnesses the second half of the claim.) -/
theorem resample_mem {α : Type} [Inhabited α] (data : List α) (g : ℕ → ℕ)
    (pos : ℕ) : ∀ v ∈ resample data g pos, v ∈ data := by
  intro v hv
  simp only [resample, List.mem_map, List.mem_range] at hv
  obtain ⟨i, hi, rfl⟩ := hv
  have hlt : g (pos + i) % data.length < data.length := Nat.mod_lt _ (by omega)
  rw [List.getD_eq_getElem data default hlt]
  exact List.getElem_mem hlt

/-- C6: the pipeline (data generation, bootstrap, mean and confidence
interval) is a deterministic function of its inputs and the two random
streams: two runs with identical inputs and identical streams produce
identical outputs. -/
theorem pipeline_deterministic (n₁ n₂ : ℕ) (c₁ c₂ : ℝ) (B₁ B₂ : ℕ)
    (z₁ z₂ : ℕ → ℝ × ℝ) (g₁ g₂ : ℕ → ℕ) (hn : n₁ = n₂) (hc : c₁ = c₂)
    (hB : B₁ = B₂) (hz : z₁ = z₂) (hg : g₁ = g₂) :
    pipeline n₁ c₁ B₁ z₁ g₁ = pipeline n₂ c₂ B₂ z₂ g₂ := by
  rw [hn, hc, hB, hz, hg]

/-- Witness for C6: two textually identical runs agree. -/
theorem pipeline_deterministic_witness :
    ((2 : ℕ) = 2 ∧ (0 : ℝ) = 0 ∧ (1 : ℕ) = 1 ∧
      (fun _ : ℕ => ((0 : ℝ), (0 : ℝ))) = (fun _ : ℕ => ((0 : ℝ), (0 : ℝ))) ∧
      (fun i : ℕ => i) = (fun i : ℕ => i)) ∧
    pipeline 2 0 1 (fun _ => (0, 0)) (fun i => i) =
      pipeline 2 0 1 (fun _ => (0, 0)) (fun i => i) :=
  ⟨⟨rfl, rfl, rfl, rfl, rfl⟩,
    pipeline_deterministic 2 2 0 0 1 1 (fun _ => (0, 0)) (fun _ => (0, 0))
      (fun i => i) (fun i => i) rfl rfl rfl rfl rfl⟩

/-- Centered sums of squares are nonnegative. -/
theorem sxx_nonneg (ps : List (ℝ × ℝ)) : 0 ≤ sxx ps :=
  Finset.sum_nonneg fun _ _ => sq_nonneg _

/-- Centered sums of squares are nonnegative (y-dimension). -/
theorem syy_nonneg (ps : List (ℝ × ℝ)) : 0 ≤ syy ps :=
  Finset.sum_nonneg fun _ _ => sq_nonneg _

/-- Cauchy-Schwarz for the centered sums of the Pearson coefficient. -/
theorem sxy_sq_le (ps : List (ℝ × ℝ)) : sxy ps ^ 2 ≤ sxx ps * syy ps := by
  simpa [sxy, sxx, syy] using
    Finset.sum_mul_sq_le_sq_mul_sq (Finset.range ps.length) (devX ps) (devY ps)

/-- On a nondegenerate sample the Pearson coefficient is defined and lies in
the interval `[-1, 1]`. -/
theorem corrcoef_bounded (ps : List (ℝ × ℝ)) (hx : sxx ps ≠ 0)
    (hy : syy ps ≠ 0) : ∃ r, corrcoef ps = some r ∧ -1 ≤ r ∧ r ≤ 1 := by
  have hx0 : 0 < sxx ps := lt_of_le_of_ne (sxx_nonneg ps) (Ne.symm hx)
  have hy0 : 0 < syy ps := lt_of_le_of_ne (syy_nonneg ps) (Ne.symm hy)
  have hD : 0 < Real.sqrt (sxx ps) * Real.sqrt (syy ps) :=
    mul_pos (Real.sqrt_pos.2 hx0) (Real.sqrt_pos.2 hy0)
  have habs : |sxy ps| ≤ Real.sqrt (sxx ps) * Real.sqrt (syy ps) := by
    have h1 : Real.sqrt (sxy ps ^ 2) ≤ Real.sqrt (sxx ps * syy ps) :=
      Real.sqrt_le_sqrt (sxy_sq_le ps)
    rw [Real.sqrt_sq_eq_abs, Real.sqrt_mul (sxx_nonneg ps)] at h1
    exact h1
  have hr : |sxy ps / (Real.sqrt (sxx ps) * Real.sqrt (syy ps))| ≤ 1 := by
    rw [abs_div, abs_of_pos hD]
    exact (div_le_one hD).2 habs
  obtain ⟨h1, h2⟩ := abs_le.mp hr
  exact ⟨_, by rw [corrcoef, if_neg (not_or.mpr ⟨hx, hy⟩)], h1, h2⟩

/-- C5: absent degenerate resamples (no resample with zero variance in either
dimension), every value of the bootstrap distribution is defined and lies in
`[-1, 1]`. -/
theorem bootstrap_correlation_bounded (data : List (ℝ × ℝ)) (n_iterations : ℕ)
    (g : ℕ → ℕ) (hdata : 2 ≤ data.length) (hB : 1 ≤ n_iterations)
    (hnd : ∀ k, k < n_iterations →
      sxx (resample data g (k * data.length)) ≠ 0 ∧
      syy (resample data g (k * data.length)) ≠ 0) :
    ∀ v ∈ bootstrap_correlation data n_iterations g,
      ∃ r, v = some r ∧ -1 ≤ r ∧ r ≤ 1 := by
  intro v hv
  simp only [bootstrap_correlation, List.mem_map, List.mem_range] at hv
  obtain ⟨k, hk, rfl⟩ := hv
  obtain ⟨hx, hy⟩ := hnd k hk
  exact corrcoef_bounded _ hx hy

/-- Resampling `dataW` through the identity stream returns `dataW` itself. -/
theorem resample_dataW : resample dataW (fun i => i) 0 = dataW := by
  simp [resample, dataW, List.range_succ]

/-- Witness for C10: the head of a concrete resample is a row of the input. -/
theorem resample_mem_witness :
    ((0 : ℝ), (0 : ℝ)) ∈ resample dataW (fun i => i) 0 ∧
      ((0 : ℝ), (0 : ℝ)) ∈ dataW :=
  ⟨by rw [resample_dataW]; simp [dataW],
    resample_mem dataW (fun i => i) 0 (0, 0) (by rw [resample_dataW]; simp [dataW])⟩

/-- Concrete x-variance of `dataW`. -/
theorem sxx_dataW : sxx dataW = 1 / 2 := by
  simp only [sxx, devX, meanX, dataW]
  norm_num [Finset.sum_range_succ]

/-- Concrete y-variance of `dataW`. -/
theorem syy_dataW : syy dataW = 1 / 2 := by
  simp only [syy, devY, meanY, dataW]
  norm_num [Finset.sum_range_succ]

/-- No resample of the one-round identity-stream bootstrap on `dataW` is
degenerate. -/
theorem dataW_nondegenerate : ∀ k, k < 1 →
    sxx (resample dataW (fun i => i) (k * dataW.length)) ≠ 0 ∧
    syy (resample dataW (fun i => i) (k * dataW.length)) ≠ 0 := by
  intro k hk
  have hk0 : k = 0 := by omega
  subst hk0
  rw [Nat.zero_mul, resample_dataW, sxx_dataW, syy_dataW]
  norm_num

/-- Witness for C5 at `dataW`, one iteration and the identity stream. -/
theorem bootstrap_correlation_bounded_witness :
    (2 ≤ dataW.length ∧ 1 ≤ 1 ∧
      (∀ k, k < 1 →
        sxx (resample dataW (fun i => i) (k * dataW.length)) ≠ 0 ∧
        syy (resample dataW (fun i => i) (k * dataW.length)) ≠ 0)) ∧
    ∀ v ∈ bootstrap_correlation dataW 1 (fun i => i),
      ∃ r, v = some r ∧ -1 ≤ r ∧ r ≤ 1 :=
  ⟨⟨by norm_num [dataW], le_refl 1, dataW_nondegenerate⟩,
    bootstrap_correlation_bounded dataW 1 (fun i => i) (by norm_num [dataW])
      (le_refl 1) dataW_nondegenerate⟩

/-- C3: for every positive `n` and correlation in `[-1, 1]`, `generate_data`
builds the 2×2 covariance matrix with unit variances on the diagonal and the
given correlation off the diagonal, and draws `n` samples from the zero-mean
bivariate normal with that covariance: the Cholesky factor realises exactly
this covariance (`L * Lᵀ = covMatrix`), and the `i`-th sample is the factor
applied to the `i`-th independent standard-normal pair alone. -/
theorem generate_data_spec (n : ℕ) (correlation : ℝ) (z : ℕ → ℝ × ℝ)
    (hn : 1 ≤ n) (hc : -1 ≤ correlation ∧ correlation ≤ 1) :
    (covMatrix correlation 0 0 = 1 ∧ covMatrix correlation 1 1 = 1 ∧
      covMatrix correlation 0 1 = correlation ∧
      covMatrix correlation 1 0 = correlation) ∧
    cholFactor correlation * (cholFactor correlation)ᵀ = covMatrix correlation ∧
    (generate_data n correlation z).length = n ∧
    (∀ i, i < n →
      (generate_data n correlation z).getD i default = mvnDraw correlation (z i)) := by
  have hsq : Real.sqrt (1 - correlation ^ 2) * Real.sqrt (1 - correlation ^ 2) =
      1 - correlation ^ 2 :=
    Real.mul_self_sqrt (by nlinarith [hc.1, hc.2])
  refine ⟨⟨by simp [covMatrix], by simp [covMatrix], by simp [covMatrix],
    by simp [covMatrix]⟩, ?_, by simp [generate_data], ?_⟩
  · rw [covMatrix, cholFactor, show (!![1, 0; correlation,
        Real.sqrt (1 - correlation ^ 2)])ᵀ =
        !![1, correlation; 0, Real.sqrt (1 - correlation ^ 2)] from by
      ext i j; fin_cases i <;> fin_cases j <;> rfl]
    rw [Matrix.mul_fin_two]
    ext i j
    fin_cases i <;> fin_cases j <;> simp <;> nlinarith [hsq]
  · intro i hi
    simp [generate_data, List.getD_eq_getElem?_getD, List.getElem?_map,
      List.getElem?_range, hi]

/-- Witness for C3 at `n = 2`, correlation `1/2` and the constant-zero normal
stream. -/
theorem generate_data_spec_witness :
    (1 ≤ 2 ∧ (-1 ≤ (1 / 2 : ℝ) ∧ (1 / 2 : ℝ) ≤ 1)) ∧
    ((covMatrix (1 / 2) 0 0 = 1 ∧ covMatrix (1 / 2) 1 1 = 1 ∧
      covMatrix (1 / 2) 0 1 = (1 / 2 : ℝ) ∧ covMatrix (1 / 2) 1 0 = (1 / 2 : ℝ)) ∧
    cholFactor (1 / 2) * (cholFactor (1 / 2))ᵀ = covMatrix (1 / 2) ∧
    (generate_data 2 (1 / 2) fun _ => (0, 0)).length = 2 ∧
    (∀ i, i < 2 →
      (generate_data 2 (1 / 2) fun _ => (0, 0)).getD i default =
        mvnDraw (1 / 2) ((fun _ => ((0 : ℝ), (0 : ℝ))) i))) :=
  ⟨⟨by norm_num, by norm_num⟩,
    generate_data_spec 2 (1 / 2) (fun _ => (0, 0)) (by norm_num) (by norm_num)⟩

/-- Dataset for the degenerate-resample analysis of C4. -/
noncomputable def dataC4 : List (ℝ × ℝ) := [(0, 0), (1, 1), (2, 4)]

/-- Index stream whose first bootstrap round draws row 0 three times (a
degenerate resample, zero variance in both dimensions) while the second round
draws each row once. -/
def gC4 : ℕ → ℕ := fun i => if i < 3 then 0 else i

/-- Round 0 of the `gC4` stream resamples row 0 of `dataC4` three times. -/
theorem resample_dataC4_0 :
    resample dataC4 gC4 0 = [((0 : ℝ), (0 : ℝ)), (0, 0), (0, 0)] := by
  simp [resample, dataC4, gC4, List.range_succ]

/-- Round 1 of the `gC4` stream resamples each row of `dataC4` once. -/
theorem resample_dataC4_1 : resample dataC4 gC4 3 = dataC4 := by
  simp [resample, dataC4, gC4, List.range_succ]

/-- The constant sample has zero x-variance. -/
theorem sxx_deg : sxx [((0 : ℝ), (0 : ℝ)), (0, 0), (0, 0)] = 0 := by
  simp only [sxx, devX, meanX]
  norm_num [Finset.sum_range_succ]

/-- Concrete x-variance of `dataC4`. -/
theorem sxx_dataC4 : sxx dataC4 = 2 := by
  simp only [sxx, devX, meanX, dataC4]
  norm_num [Finset.sum_range_succ]

/-- Concrete y-variance of `dataC4`. -/
theorem syy_dataC4 : syy dataC4 = 26 / 3 := by
  simp only [syy, devY, meanY, dataC4]
  norm_num [Finset.sum_range_succ]

/-- The two-round bootstrap on `dataC4` through `gC4`, evaluated. -/
theorem bootstrapC4_eq :
    bootstrap_correlation dataC4 2 gC4 =
      [corrcoef (resample dataC4 gC4 0), corrcoef (resample dataC4 gC4 3)] := by
  simp [bootstrap_correlation, dataC4, List.range_succ]

/-- The first round's correlation is undefined (NaN). -/
theorem corrcoefC4_0 : corrcoef (resample dataC4 gC4 0) = none := by
  rw [resample_dataC4_0, corrcoef, if_pos (Or.inl sxx_deg)]

/-- The second round's correlation is defined. -/
theorem corrcoefC4_1 : corrcoef (resample dataC4 gC4 3) ≠ none := by
  rw [resample_dataC4_1, corrcoef, if_neg]
  · simp
  · rw [sxx_dataC4, syy_dataC4]
    norm_num

/-- Counterexample to C4: on the concrete degenerate input
(`dataC4`, 2 iterations, stream `gC4`), the program applies neither policy
the claim allows.  The undefined first-round correlation is kept in the output
as NaN (`none`) — so the iteration is not discarded and redrawn — and it is
not excluded from the aggregate statistics: although the second round's value
is defined, the mean and both confidence-interval endpoints come out NaN. -/
theorem degenerate_policy_counterexample :
    (bootstrap_correlation dataC4 2 gC4).getD 0 (some 0) = none ∧
    (bootstrap_correlation dataC4 2 gC4).getD 1 none ≠ none ∧
    (bootstrap_correlation dataC4 2 gC4).length = 2 ∧
    npMean (bootstrap_correlation dataC4 2 gC4) = none ∧
    confidence_interval (bootstrap_correlation dataC4 2 gC4) = (none, none) := by
  have hnone : ¬(bootstrap_correlation dataC4 2 gC4 ≠ [] ∧
      ∀ v ∈ bootstrap_correlation dataC4 2 gC4, v.isSome) := by
    rintro ⟨-, hall⟩
    have := hall none (by rw [bootstrapC4_eq, corrcoefC4_0]; exact List.mem_cons_self _ _)
    simp at this
  refine ⟨?_, ?_, ?_, ?_, ?_⟩
  · rw [bootstrapC4_eq, corrcoefC4_0]; rfl
  · rw [bootstrapC4_eq]
    simpa using corrcoefC4_1
  · rw [bootstrapC4_eq]; rfl
  · rw [npMean, if_neg hnone]
  · rw [confidence_interval, npPercentile, npPercentile, if_neg hnone, if_neg hnone]

/-- C4 as amended: the program applies no explicit policy for degenerate
resamples.  Whenever round `k` of the bootstrap is degenerate (zero variance
in one dimension), the undefined correlation is kept in the output sequence as
NaN at position `k` (the round is not redrawn; the output length stays the
iteration count), and it propagates into the aggregate statistics: the mean
and both confidence-interval endpoints become NaN instead of excluding it. -/
theorem degenerate_resample_propagates (data : List (ℝ × ℝ)) (n_iterations : ℕ)
    (g : ℕ → ℕ) (k : ℕ) (hk : k < n_iterations)
    (hdeg : sxx (resample data g (k * data.length)) = 0 ∨
      syy (resample data g (k * data.length)) = 0) :
    (bootstrap_correlation data n_iterations g).length = n_iterations ∧
    (bootstrap_correlation data n_iterations g).getD k (some 0) = none ∧
    npMean (bootstrap_correlation data n_iterations g) = none ∧
    confidence_interval (bootstrap_correlation data n_iterations g) =
      (none, none) := by
  have hmem : none ∈ bootstrap_correlation data n_iterations g := by
    simp only [bootstrap_correlation, List.mem_map, List.mem_range]
    exact ⟨k, hk, corrcoef_of_deg hdeg⟩
  have hnone : ¬(bootstrap_correlation data n_iterations g ≠ [] ∧
      ∀ v ∈ bootstrap_correlation data n_iterations g, v.isSome) := by
    rintro ⟨-, hall⟩
    have := hall none hmem
    simp at this
  refine ⟨by simp [bootstrap_correlation], ?_, ?_, ?_⟩
  · simp only [bootstrap_correlation, List.getD_eq_getElem?_getD, List.getElem?_map,
      List.getElem?_range, hk]
    simp only [if_pos hk, Option.map_some']
    rw [corrcoef_of_deg hdeg]
    rfl
  · rw [npMean, if_neg hnone]
  · rw [confidence_interval, npPercentile, npPercentile, if_neg hnone, if_neg hnone]

/-- Witness for the amended C4 at the concrete degenerate input. -/
theorem degenerate_resample_propagates_witness :
    (0 < 2 ∧ (sxx (resample dataC4 gC4 (0 * dataC4.length)) = 0 ∨
      syy (resample dataC4 gC4 (0 * dataC4.length)) = 0)) ∧
    ((bootstrap_correlation dataC4 2 gC4).length = 2 ∧
    (bootstrap_correlation dataC4 2 gC4).getD 0 (some 0) = none ∧
    npMean (bootstrap_correlation dataC4 2 gC4) = none ∧
    confidence_interval (bootstrap_correlation dataC4 2 gC4) = (none, none)) :=
  ⟨⟨by norm_num, Or.inl (by rw [show (0 * dataC4.length) = 0 from rfl, resample_dataC4_0]; exact sxx_deg)⟩,
    degenerate_resample_propagates dataC4 2 gC4 0 (by norm_num)
      (Or.inl (by rw [show (0 * dataC4.length) = 0 from rfl, resample_dataC4_0]; exact sxx_deg))⟩

/-- Minimum of a list of reals (numpy `a.min()`, meaningful for nonempty
input). -/
noncomputable def listMin (l : List ℝ) : ℝ := l.foldr min (l.headD 0)

/-- Maximum of a list of reals. -/
noncomputable def listMax (l : List ℝ) : ℝ := l.foldr max (l.headD 0)

/-- Bin range chosen by `np.histogram`: `[min, max]` of the data, widened to
`[min - 0.5, max + 0.5]` when all values coincide, as numpy does. -/
noncomputable def histRange (l : List ℝ) : ℝ × ℝ :=
  if listMin l = listMax l then (listMin l - 1 / 2, listMax l + 1 / 2)
  else (listMin l, listMax l)

/-- Common width of the equal-width bins of `np.histogram`. -/
noncomputable def binWidth (l : List ℝ) (bins : ℕ) : ℝ :=
  ((histRange l).2 - (histRange l).1) / bins

/-- Index of the bin receiving `x`: numpy's half-open equal-width bins, the
last bin closed on the right (so the maximum falls in the last bin). -/
noncomputable def binIndex (l : List ℝ) (bins : ℕ) (x : ℝ) : ℕ :=
  min (⌊(x - (histRange l).1) / binWidth l bins⌋.toNat) (bins - 1)

/-- Number of data points in bin `i`. -/
noncomputable def binCount (l : List ℝ) (bins : ℕ) (i : ℕ) : ℕ :=
  l.countP fun x => binIndex l bins x = i

/-- Embedding of `np.histogram(bootstrap_correlations, bins, density=True)`
(line 98 of the source): the ordered sequence of
`(binEdgeLow, binEdgeHigh, density)` triples, with density the bin count
divided by total count and bin width. -/
noncomputable def histogram (l : List ℝ) (bins : ℕ) : List (ℝ × ℝ × ℝ) :=
  (List.range bins).map fun i : ℕ =>
    ((histRange l).1 + (i : ℝ) * binWidth l bins,
     (histRange l).1 + ((i : ℝ) + 1) * binWidth l bins,
     (binCount l bins i : ℝ) / (l.length * binWidth l bins))

/-- The minimum of a nonempty list is at most its maximum. -/
theorem listMin_le_listMax (l : List ℝ) (hl : l ≠ []) : listMin l ≤ listMax l := by
  obtain ⟨x, t, rfl⟩ := List.exists_cons_of_ne_nil hl
  calc listMin (x :: t) ≤ x := by simp [listMin]
    _ ≤ listMax (x :: t) := by simp [listMax]

/-- The bin width is positive on nonempty input. -/
theorem binWidth_pos (l : List ℝ) (bins : ℕ) (hl : l ≠ []) (hb : 1 ≤ bins) :
    0 < binWidth l bins := by
  have hbr : (0 : ℝ) < bins := by exact_mod_cast hb
  rw [binWidth, histRange]
  by_cases h : listMin l = listMax l
  · rw [if_pos h]
    apply div_pos _ hbr
    rw [h]
    ring_nf
    norm_num
  · rw [if_neg h]
    apply div_pos _ hbr
    have := lt_of_le_of_ne (listMin_le_listMax l hl) h
    simpa using this

/-- Every data point falls in one of the `bins` bins. -/
theorem binIndex_lt (l : List ℝ) (bins : ℕ) (hb : 1 ≤ bins) (x : ℝ) :
    binIndex l bins x < bins :=
  Nat.lt_of_le_of_lt (min_le_right _ _) (Nat.sub_lt (by omega) one_pos)

/-- Sum of a function mapped over `List.range` as a `Finset.range` sum. -/
theorem list_range_map_sum (n : ℕ) (f : ℕ → ℝ) :
    ((List.range n).map f).sum = ∑ i ∈ Finset.range n, f i := by
  induction n with
  | zero => simp
  | succ m ih => rw [List.range_succ, List.map_append, List.sum_append,
      Finset.sum_range_succ, ih]; simp

/-- Counting each fiber of a bounded assignment once covers the whole list. -/
theorem sum_countP_length (l : List ℝ) (m : ℕ) (f : ℝ → ℕ)
    (hf : ∀ x ∈ l, f x < m) :
    ∑ i ∈ Finset.range m, l.countP (fun x => f x = i) = l.length := by
  induction l with
  | nil => simp
  | cons a t ih =>
    have hfa : f a ∈ Finset.range m :=
      Finset.mem_range.2 (hf a (List.mem_cons_self a t))
    have iht := ih fun x hx => hf x (List.mem_cons_of_mem a hx)
    simp only [List.countP_cons, decide_eq_true_eq]
    rw [Finset.sum_add_distrib, iht]
    have : (∑ i ∈ Finset.range m, if f a = i then 1 else 0) = 1 := by
      rw [Finset.sum_ite_eq (Finset.range m) (f a) fun _ => 1, if_pos hfa]
    rw [this, List.length_cons]

/-- C9: for nonempty input and any `binCount ≥ 1`, the histogram consists of
`bins` equal-width bins, and the density normalisation makes the total area
(sum over all bins of density times bin width) exactly 1. -/
theorem histogram_spec (l : List ℝ) (bins : ℕ) (hl : l ≠ []) (hb : 1 ≤ bins) :
    (histogram l bins).length = bins ∧
    (∀ b ∈ histogram l bins, b.2.1 - b.1 = binWidth l bins) ∧
    ((histogram l bins).map fun b => b.2.2 * (b.2.1 - b.1)).sum = 1 := by
  have hw : binWidth l bins ≠ 0 := ne_of_gt (binWidth_pos l bins hl hb)
  have hn : (l.length : ℝ) ≠ 0 := by
    have h0 := List.length_pos.2 hl
    exact_mod_cast Nat.pos_iff_ne_zero.mp h0
  refine ⟨by simp [histogram], ?_, ?_⟩
  · intro b hbm
    simp only [histogram, List.mem_map, List.mem_range] at hbm
    obtain ⟨i, -, rfl⟩ := hbm
    ring
  · have hform : ((histogram l bins).map fun b => b.2.2 * (b.2.1 - b.1)).sum =
        ∑ i ∈ Finset.range bins,
          (binCount l bins i : ℝ) / (l.length * binWidth l bins) *
            ((histRange l).1 + ((i : ℝ) + 1) * binWidth l bins -
              ((histRange l).1 + (i : ℝ) * binWidth l bins)) := by
      rw [histogram, List.map_map, list_range_map_sum]
      simp [Function.comp]
    rw [hform]
    have hterm : ∀ i ∈ Finset.range bins,
        (binCount l bins i : ℝ) / (l.length * binWidth l bins) *
            ((histRange l).1 + ((i : ℝ) + 1) * binWidth l bins -
              ((histRange l).1 + (i : ℝ) * binWidth l bins)) =
          (binCount l bins i : ℝ) / l.length := by
      intro i _
      have hmid : (histRange l).1 + ((i : ℝ) + 1) * binWidth l bins -
          ((histRange l).1 + (i : ℝ) * binWidth l bins) = binWidth l bins := by ring
      rw [hmid, div_mul_eq_mul_div, mul_comm (l.length : ℝ) (binWidth l bins),
        mul_comm ((binCount l bins i : ℝ)) (binWidth l bins),
        mul_div_mul_left _ _ hw]
    rw [Finset.sum_congr rfl hterm, ← Finset.sum_div]
    rw [show (∑ i ∈ Finset.range bins, (binCount l bins i : ℝ)) =
        ((∑ i ∈ Finset.range bins, binCount l bins i : ℕ) : ℝ) by push_cast; rfl]
    rw [show (∑ i ∈ Finset.range bins, binCount l bins i) = l.length from
      sum_countP_length l bins (binIndex l bins) fun x _ => binIndex_lt l bins hb x]
    exact div_self hn

/-- Witness for C9 on a concrete two-point distribution with two bins. -/
theorem histogram_spec_witness :
    (([(0 : ℝ), 1] : List ℝ) ≠ [] ∧ 1 ≤ 2) ∧
    ((histogram [(0 : ℝ), 1] 2).length = 2 ∧
    (∀ b ∈ histogram [(0 : ℝ), 1] 2, b.2.1 - b.1 = binWidth [(0 : ℝ), 1] 2) ∧
    ((histogram [(0 : ℝ), 1] 2).map fun b => b.2.2 * (b.2.1 - b.1)).sum = 1) :=
  ⟨⟨by simp, by norm_num⟩,
    histogram_spec [(0 : ℝ), 1] 2 (by simp) (by norm_num)⟩

/-- Reading a sorted list at a larger valid index gives a larger value. -/
theorem sorted_getD_mono (s : List ℝ) (hs : List.Sorted (· ≤ ·) s) (a b : ℕ)
    (hab : a ≤ b) (hb : b < s.length) : s.getD a 0 ≤ s.getD b 0 := by
  have ha : a < s.length := lt_of_le_of_lt hab hb
  rw [List.getD_eq_getElem s 0 ha, List.getD_eq_getElem s 0 hb]
  exact List.Sorted.rel_get_of_le hs (Fin.mk_le_mk.mpr hab)

/-- Linear interpolation into a sorted sequence is monotone in the position. -/
theorem interp_mono (s : List ℝ) (m : ℕ) (hs : List.Sorted (· ≤ ·) s)
    (hlen : s.length = m) (hm : 1 ≤ m) (p₁ p₂ : ℝ) (h0 : 0 ≤ p₁)
    (h12 : p₁ ≤ p₂) (h2 : p₂ ≤ (m : ℝ) - 1) : interp s m p₁ ≤ interp s m p₂ := by
  have h02 : 0 ≤ p₂ := le_trans h0 h12
  have hf1 : (0 : ℤ) ≤ ⌊p₁⌋ := Int.floor_nonneg.2 h0
  have hf2 : (0 : ℤ) ≤ ⌊p₂⌋ := Int.floor_nonneg.2 h02
  set i₁ := (⌊p₁⌋).toNat with hi₁
  set i₂ := (⌊p₂⌋).toNat with hi₂
  have hc1 : ((i₁ : ℕ) : ℝ) = ((⌊p₁⌋ : ℤ) : ℝ) := by
    exact_mod_cast congrArg (fun z : ℤ => (z : ℝ)) (Int.toNat_of_nonneg hf1)
  have hc2 : ((i₂ : ℕ) : ℝ) = ((⌊p₂⌋ : ℤ) : ℝ) := by
    exact_mod_cast congrArg (fun z : ℤ => (z : ℝ)) (Int.toNat_of_nonneg hf2)
  have hfr1 : 0 ≤ p₁ - (i₁ : ℝ) := by rw [hc1]; linarith [Int.floor_le p₁]
  have hfr1u : p₁ - (i₁ : ℝ) ≤ 1 := by rw [hc1]; linarith [Int.lt_floor_add_one p₁]
  have hfr2 : 0 ≤ p₂ - (i₂ : ℝ) := by rw [hc2]; linarith [Int.floor_le p₂]
  have hii : i₁ ≤ i₂ := Int.toNat_le_toNat (Int.floor_mono h12)
  have h2i : ⌊p₂⌋ ≤ (m : ℤ) - 1 := by
    have hcast : ((((m : ℤ) - 1) : ℤ) : ℝ) = (m : ℝ) - 1 := by push_cast; ring
    calc ⌊p₂⌋ ≤ ⌊((((m : ℤ) - 1) : ℤ) : ℝ)⌋ := Int.floor_mono (by rw [hcast]; exact h2)
      _ = (m : ℤ) - 1 := Int.floor_intCast _
  have hi2m : i₂ ≤ m - 1 := by omega
  have hi1m : i₁ ≤ m - 1 := le_trans hii hi2m
  have hj1 : min (i₁ + 1) (m - 1) < s.length := by omega
  have hj2 : min (i₂ + 1) (m - 1) < s.length := by omega
  have hi2lt : i₂ < s.length := by omega
  have hA1B1 : s.getD i₁ 0 ≤ s.getD (min (i₁ + 1) (m - 1)) 0 :=
    sorted_getD_mono s hs _ _ (by omega) hj1
  have hA2B2 : s.getD i₂ 0 ≤ s.getD (min (i₂ + 1) (m - 1)) 0 :=
    sorted_getD_mono s hs _ _ (by omega) hj2
  rcases eq_or_lt_of_le hii with heq | hlt
  · rw [interp, interp, ← hi₁, ← hi₂, ← heq]
    nlinarith [mul_nonneg (sub_nonneg.2 h12) (sub_nonneg.2 hA1B1)]
  · have hB1A2 : s.getD (min (i₁ + 1) (m - 1)) 0 ≤ s.getD i₂ 0 :=
      sorted_getD_mono s hs _ _ (by omega) hi2lt
    rw [interp, interp, ← hi₁, ← hi₂]
    nlinarith [mul_nonneg (sub_nonneg.2 hfr1u) (sub_nonneg.2 hA1B1),
      mul_nonneg hfr2 (sub_nonneg.2 hA2B2)]

/-- The percentile function is monotone in the requested percentile. -/
theorem percentile_mono (l : List ℝ) (hl : l ≠ []) (q₁ q₂ : ℝ) (h0 : 0 ≤ q₁)
    (h12 : q₁ ≤ q₂) (h2 : q₂ ≤ 100) : percentile l q₁ ≤ percentile l q₂ := by
  have hm : 1 ≤ l.length := List.length_pos.2 hl
  have hn1 : (0 : ℝ) ≤ (l.length : ℝ) - 1 := by
    have h1 : (1 : ℝ) ≤ (l.length : ℝ) := by exact_mod_cast hm
    linarith
  refine interp_mono _ _ (List.sorted_insertionSort _ l)
    (List.length_insertionSort _ l) hm _ _ ?_ ?_ ?_
  · exact div_nonneg (mul_nonneg h0 hn1) (by norm_num)
  · have h := mul_le_mul_of_nonneg_right h12 hn1
    linarith
  · have h := mul_le_mul_of_nonneg_right h2 hn1
    linarith

/-- C7: on a nonempty distribution of defined (non-NaN) values, the 95%
confidence interval `(2.5th percentile, 97.5th percentile)` is ordered:
lower ≤ upper. -/
theorem confidence_interval_ordered (l : List (Option ℝ)) (hne : l ≠ [])
    (hdef : ∀ v ∈ l, v.isSome) :
    ∃ lo hi, confidence_interval l = (some lo, some hi) ∧ lo ≤ hi := by
  have hcond : l ≠ [] ∧ ∀ v ∈ l, v.isSome := ⟨hne, hdef⟩
  have hmap : (l.map fun v => v.getD 0) ≠ [] := by
    simpa using hne
  refine ⟨percentile (l.map fun v => v.getD 0) 2.5,
    percentile (l.map fun v => v.getD 0) 97.5, ?_, ?_⟩
  · rw [confidence_interval, npPercentile, npPercentile, if_pos hcond, if_pos hcond]
  · exact percentile_mono _ hmap 2.5 97.5 (by norm_num) (by norm_num) (by norm_num)

/-- Witness for C7 on the concrete two-point distribution `[some 0, some 1]`. -/
theorem confidence_interval_ordered_witness :
    (([some (0 : ℝ), some 1] : List (Option ℝ)) ≠ [] ∧
      (∀ v ∈ ([some (0 : ℝ), some 1] : List (Option ℝ)), v.isSome)) ∧
    ∃ lo hi, confidence_interval [some (0 : ℝ), some 1] = (some lo, some hi) ∧
      lo ≤ hi :=
  ⟨⟨by simp, by simp⟩,
    confidence_interval_ordered [some (0 : ℝ), some 1] (by simp) (by simp)⟩

end BootstrapApp
